import Mathlib

/-!
Verification of the Wolfe line search and Gauss-Newton driver from
`src/jupyter/con_ana_8.ipynb` (functions `line_search_wolfe` and
`gauss_newton`).

Modelling choices:
* numpy float arrays become `Fin n → ℚ`; exact rational arithmetic stands in
  for IEEE floats.
* `np.inf`, used only as the initial `alpha_max` and in the test
  `alpha_max >= np.inf`, becomes `Option.none` in the `alpha_max` component.
* `np.linalg.lstsq` and `scipy.linalg.norm` are external library routines with
  no code in this repository; they are abstract function parameters `lstsq`
  and `nrm` of the Gauss-Newton driver (the claims settled here do not depend
  on their values).
* the `while` loops become fuel recursion, the fuel being exactly the source's
  iteration bound (`m` resp. `N`), so that running out of fuel coincides with
  the source's `i < m` resp. `k < N` guard failing.
-/

/-- Real vectors of a fixed dimension, modelling one-dimensional numpy arrays. -/
abbrev Vec (n : ℕ) : Type := Fin n → ℚ

/-- The numpy dot product `u.dot(v)`. -/
def dot {n : ℕ} (u v : Vec n) : ℚ := ∑ i, u i * v i

/-- Bracket state `(alpha_min, alpha, alpha_max)` of the line-search loop.
`amax = none` encodes `alpha_max = np.inf`. -/
structure LS where
  amin : ℚ
  alpha : ℚ
  amax : Option ℚ
deriving DecidableEq

/-- Which branch of the loop body of `line_search_wolfe` executes:
`shrink` is the Armijo-violation branch (`fz > W1`), `double` and `grow` are
the two sub-branches of the curvature-violation branch (`hz < W2`) according
to `alpha_max >= np.inf` or not, and `stay` is the implicit no-op taken when
neither strict test fires. -/
inductive LSBranch
  | shrink
  | double
  | grow
  | stay
deriving DecidableEq

section LineSearch

variable {n : ℕ} (x : Vec n) (a : ℚ) (p : Vec n) (f : Vec n → ℚ) (g : Vec n → Vec n)
variable (c1 c2 : ℚ)

/-- Trial point `z = x + alpha * p`. -/
def zOf (alpha : ℚ) : Vec n := x + alpha • p

/-- Objective value `fz = f(z)` at the trial point for step `alpha`. -/
def lsf (alpha : ℚ) : ℚ := f (zOf x p alpha)

/-- Directional derivative `hz = g(z).dot(p)` at the trial point for step `alpha`. -/
def lsh (alpha : ℚ) : ℚ := dot (g (zOf x p alpha)) p

/-- The bound `W1 = fx + alpha * c1 * hx` of the source, computed before the
loop while `alpha` still equals the initial guess `a`, and never reassigned. -/
def lsW1 : ℚ := f x + a * c1 * dot (g x) p

/-- The bound `W2 = c2 * hx` of the source. -/
def lsW2 : ℚ := c2 * dot (g x) p

/-- The `while` guard `fz >= W1 or hz <= W2` (without the `i < m` conjunct,
which the fuel of `lsLoop` accounts for). -/
abbrev lsGuard (s : LS) : Prop :=
  lsW1 x a p f g c1 ≤ lsf x p f s.alpha ∨ lsh x p g s.alpha ≤ lsW2 x p g c2

/-- The strict violation test `fz > W1 or hz < W2` that the source evaluates
after the loop into the returned flag `chk`. -/
abbrev lsViol (alpha : ℚ) : Prop :=
  lsW1 x a p f g c1 < lsf x p f alpha ∨ lsh x p g alpha < lsW2 x p g c2

/-- One execution of the loop body of `line_search_wolfe` (the bracket update;
the re-evaluation of `z, fz, gz, hz` is recomputed from `alpha` on demand,
`f` and `g` being pure). -/
def lsStep (s : LS) : LS :=
  if lsW1 x a p f g c1 < lsf x p f s.alpha then
    ⟨s.amin, (s.amin + s.alpha) / 2, some s.alpha⟩
  else if lsh x p g s.alpha < lsW2 x p g c2 then
    match s.amax with
    | none => ⟨s.amin, 2 * s.alpha, none⟩
    | some M => ⟨s.alpha, (s.alpha + M) / 2, some M⟩
  else s

/-- Observer naming the branch `lsStep` takes from state `s`. -/
def lsBranch (s : LS) : LSBranch :=
  if lsW1 x a p f g c1 < lsf x p f s.alpha then .shrink
  else if lsh x p g s.alpha < lsW2 x p g c2 then
    match s.amax with
    | none => .double
    | some _ => .grow
  else .stay

/-- The bracketing loop of `line_search_wolfe`: `lsLoop fuel s i` runs the
`while` loop from state `s` and counter `i` with `fuel = m - i` remaining
iterations, returning the final state and counter. -/
def lsLoop : ℕ → LS → ℕ → LS × ℕ
  | 0, s, i => (s, i)
  | fuel + 1, s, i =>
    if lsGuard x a p f g c1 c2 s then
      lsLoop fuel (lsStep x a p f g c1 c2 s) (i + 1)
    else (s, i)

/-- The list of states at which the `while` guard of `line_search_wolfe` is
tested, in order: the states visited by `lsLoop`. -/
def lsTrace : ℕ → LS → List LS
  | 0, s => [s]
  | fuel + 1, s =>
    if lsGuard x a p f g c1 c2 s then
      s :: lsTrace fuel (lsStep x a p f g c1 c2 s)
    else [s]

/-- Shallow embedding of `line_search_wolfe(x, a, p, f, g, c1, c2, m)` from
`con_ana_8.ipynb`: returns `(alpha, i, chk)` with
`chk = fz > W1 or hz < W2` recomputed from the final trial values. -/
def line_search_wolfe (m : ℕ) : ℚ × ℕ × Bool :=
  let res := lsLoop x a p f g c1 c2 m ⟨0, a, none⟩ 0
  (res.1.alpha, res.2, decide (lsViol x a p f g c1 c2 res.1.alpha))

/-- Modelled from the spec (claim C3's reading): an Armijo bound
`f(x) + alpha*c1*(g(x).p)` that tracks the current trial step `alpha`
instead of staying fixed at the initial guess. -/
def lsW1t (alpha : ℚ) : ℚ := f x + alpha * c1 * dot (g x) p

/-- Loop body of the spec-described variant, identical to `lsStep` except
that the Armijo bound tracks the current trial step. -/
def lsStepT (s : LS) : LS :=
  if lsW1t x p f g c1 s.alpha < lsf x p f s.alpha then
    ⟨s.amin, (s.amin + s.alpha) / 2, some s.alpha⟩
  else if lsh x p g s.alpha < lsW2 x p g c2 then
    match s.amax with
    | none => ⟨s.amin, 2 * s.alpha, none⟩
    | some M => ⟨s.alpha, (s.alpha + M) / 2, some M⟩
  else s

/-- Loop of the spec-described variant with the tracking Armijo bound. -/
def lsLoopT : ℕ → LS → ℕ → LS × ℕ
  | 0, s, i => (s, i)
  | fuel + 1, s, i =>
    if lsW1t x p f g c1 s.alpha ≤ lsf x p f s.alpha ∨ lsh x p g s.alpha ≤ lsW2 x p g c2 then
      lsLoopT fuel (lsStepT x p f g c1 c2 s) (i + 1)
    else (s, i)

/-- Modelled from the spec (claim C3's reading of `line_search_wolfe`): the
line search as it would behave if the Armijo bound W1 tracked the current
trial step length, as the spec sentence quoted for C3 states. -/
def line_search_wolfe_trackW1 (m : ℕ) : ℚ × ℕ × Bool :=
  let res := lsLoopT x p f g c1 c2 m ⟨0, a, none⟩ 0
  (res.1.alpha, res.2,
    decide (lsW1t x p f g c1 res.1.alpha < lsf x p f res.1.alpha ∨
      lsh x p g res.1.alpha < lsW2 x p g c2))

end LineSearch

/-- Result `[x, F, G, k]` of `gauss_newton`: final point, objective history,
gradient-norm history, iteration count. -/
structure GNResult (nn : ℕ) where
  x : Vec nn
  F : List ℚ
  G : List ℚ
  k : ℕ

section GaussNewton

variable {nn mm : ℕ} (f : Vec nn → ℚ) (df : Vec nn → Vec nn) (r : Vec nn → Vec mm)
variable (J : Vec nn → Matrix (Fin mm) (Fin nn) ℚ)
variable (lstsq : Matrix (Fin mm) (Fin nn) ℚ → Vec mm → Vec nn)
variable (nrm : Vec nn → ℚ) (err c1 c2 : ℚ) (lsi : ℕ)

/-- The outer `while` loop of `gauss_newton`:
`gnGo fuel x alpha ng F G k` runs the loop with `fuel = N - k` remaining
iterations from local state `(x, alpha, ng, F, G, k)`. The returned `i` and
`chk` of the line search are discarded, as in the source. -/
def gnGo : ℕ → Vec nn → ℚ → ℚ → List ℚ → List ℚ → ℕ → GNResult nn
  | 0, x, _, _, F, G, k => ⟨x, F, G, k⟩
  | fuel + 1, x, alpha, ng, F, G, k =>
    if err < ng then
      let p := lstsq (J x) (-(r x))
      let alpha' := (line_search_wolfe x alpha p f df c1 c2 lsi).1
      let x' := x + alpha' • p
      let ng' := nrm (df x')
      gnGo fuel x' alpha' ng' (F ++ [f x']) (G ++ [ng']) (k + 1)
    else ⟨x, F, G, k⟩

/-- Shallow embedding of `gauss_newton(x, f, df, r, J, N, err, c1, c2, lsi)`
from `con_ana_8.ipynb`; `lstsq` and `nrm` abstract the library routines
`np.linalg.lstsq(·, ·, rcond=None)[0]` and `scipy.linalg.norm`. -/
def gauss_newton (N : ℕ) (x : Vec nn) : GNResult nn :=
  gnGo f df r J lstsq nrm err c1 c2 lsi N x 1 (2 * err) [] [] 0

end GaussNewton

/-- The bracket invariant of the spec: `alpha_min` nonnegative, `alpha`
strictly positive, and `alpha_min ≤ alpha ≤ alpha_max` (the upper comparison
holding vacuously while `alpha_max = np.inf`). -/
def LSInv (s : LS) : Prop :=
  0 ≤ s.amin ∧ 0 < s.alpha ∧ s.amin ≤ s.alpha ∧ ∀ M, s.amax = some M → s.alpha ≤ M

/-- Comparison of `alpha_max` values, `none` standing for `+infinity`:
`amaxLe u v` says `u ≤ v`; in particular a finite value is below `none` and
`none` is not below any finite value. -/
def amaxLe (u v : Option ℚ) : Prop :=
  match v with
  | none => True
  | some M =>
    match u with
    | none => False
    | some Mu => Mu ≤ M

/-- Concrete input for counterexamples: the point `x = [1]`. -/
def cexX : Vec 1 := fun _ => 1

/-- Concrete input for counterexamples: the descent direction `p = [-1]`. -/
def cexP : Vec 1 := fun _ => -1

/-- Concrete input for counterexamples: the objective `f(v) = v₀²`. -/
def cexF : Vec 1 → ℚ := fun v => v 0 * v 0

/-- Concrete input for counterexamples: the gradient `g(v) = [2 v₀]` of `cexF`. -/
def cexG : Vec 1 → Vec 1 := fun v => fun _ => 2 * v 0

/-- Trivial concrete vector used by witnesses. -/
def trivVec : Vec 1 := fun _ => 0

/-- Trivial concrete objective used by witnesses. -/
def trivF : Vec 1 → ℚ := fun _ => 0

/-- Trivial concrete gradient used by witnesses. -/
def trivG : Vec 1 → Vec 1 := fun _ => trivVec

/-- Trivial concrete residual used by witnesses. -/
def trivR : Vec 1 → Vec 1 := fun _ => trivVec

/-- Trivial concrete Jacobian used by witnesses. -/
def trivJ : Vec 1 → Matrix (Fin 1) (Fin 1) ℚ := fun _ => 0

/-- Trivial concrete least-squares solver used by witnesses. -/
def trivLstsq : Matrix (Fin 1) (Fin 1) ℚ → Vec 1 → Vec 1 := fun _ _ => trivVec

/-- Trivial concrete norm used by witnesses. -/
def trivNrm : Vec 1 → ℚ := fun _ => 0

section GaussNewtonStep

variable {nn mm : ℕ} (f : Vec nn → ℚ) (df : Vec nn → Vec nn) (r : Vec nn → Vec mm)
variable (J : Vec nn → Matrix (Fin mm) (Fin nn) ℚ)
variable (lstsq : Matrix (Fin mm) (Fin nn) ℚ → Vec mm → Vec nn)
variable (c1 c2 : ℚ) (lsi : ℕ)

/-- The direction `p = np.linalg.lstsq(J(x), -r(x), rcond=None)[0]` of one
outer Gauss-Newton iteration. -/
def gnDir (x : Vec nn) : Vec nn := lstsq (J x) (-(r x))

/-- The step length extracted from the warm-started line-search call of one
outer Gauss-Newton iteration: the current `alpha` is passed as the initial
guess and only the first component of the returned triple is kept. -/
def gnAlpha (alpha : ℚ) (x : Vec nn) : ℚ :=
  (line_search_wolfe x alpha (gnDir r J lstsq x) f df c1 c2 lsi).1

/-- The updated iterate `x + alpha * p` of one outer Gauss-Newton iteration,
accepted unconditionally (the `chk` flag of the line search is not read). -/
def gnNext (alpha : ℚ) (x : Vec nn) : Vec nn :=
  x + gnAlpha f df r J lstsq c1 c2 lsi alpha x • gnDir r J lstsq x

end GaussNewtonStep

section LineSearchLemmas

variable {n : ℕ} (x : Vec n) (a : ℚ) (p : Vec n) (f : Vec n → ℚ) (g : Vec n → Vec n)
variable (c1 c2 : ℚ)

theorem lsStep_inv {s : LS} (h : LSInv s) : LSInv (lsStep x a p f g c1 c2 s) := by
  obtain ⟨amin, alpha, amax⟩ := s
  obtain ⟨h0, ha, hma, hM⟩ := h
  simp only at h0 ha hma hM
  unfold lsStep
  dsimp only
  split
  · refine ⟨h0, by linarith, by linarith, fun M hM' => ?_⟩
    simp only [Option.some.injEq] at hM'
    subst hM'
    linarith
  · split
    · cases amax with
      | none =>
        refine ⟨h0, by linarith, by linarith, fun M hM' => ?_⟩
        simp at hM'
      | some M =>
        have hMle : alpha ≤ M := hM M rfl
        refine ⟨by linarith, by linarith, by linarith, fun M' hM' => ?_⟩
        simp only [Option.some.injEq] at hM'
        subst hM'
        linarith
    · exact ⟨h0, ha, hma, hM⟩

theorem lsStep_amin_mono {s : LS} (h : LSInv s) :
    s.amin ≤ (lsStep x a p f g c1 c2 s).amin := by
  obtain ⟨amin, alpha, amax⟩ := s
  obtain ⟨h0, ha, hma, hM⟩ := h
  simp only at h0 ha hma hM
  unfold lsStep
  dsimp only
  split
  · exact le_refl _
  · split
    · cases amax with
      | none => exact le_refl _
      | some M => exact hma
    · exact le_refl _

theorem lsStep_amax_mono {s : LS} (h : LSInv s) :
    amaxLe (lsStep x a p f g c1 c2 s).amax s.amax := by
  obtain ⟨amin, alpha, amax⟩ := s
  obtain ⟨h0, ha, hma, hM⟩ := h
  simp only at h0 ha hma hM
  unfold lsStep
  dsimp only
  split
  · cases amax with
    | none => simp [amaxLe]
    | some M => simpa [amaxLe] using hM M rfl
  · split
    · cases amax with
      | none => simp [amaxLe]
      | some M => simp [amaxLe]
    · cases amax with
      | none => simp [amaxLe]
      | some M => simp [amaxLe]

theorem lsStep_amax_ne_none {s : LS} (h : s.amax ≠ none) :
    (lsStep x a p f g c1 c2 s).amax ≠ none := by
  obtain ⟨amin, alpha, amax⟩ := s
  simp only at h
  unfold lsStep
  dsimp only
  split
  · simp
  · split
    · cases amax with
      | none => exact absurd rfl h
      | some M => simp
    · exact h

theorem lsTrace_inv (fuel : ℕ) :
    ∀ s : LS, LSInv s → ∀ t ∈ lsTrace x a p f g c1 c2 fuel s, LSInv t := by
  induction fuel with
  | zero =>
    intro s hs t ht
    simp only [lsTrace, List.mem_singleton] at ht
    subst ht
    exact hs
  | succ fuel ih =>
    intro s hs t ht
    rw [lsTrace] at ht
    by_cases hg : lsGuard x a p f g c1 c2 s
    · rw [if_pos hg] at ht
      rcases List.mem_cons.mp ht with h | h
      · subst h
        exact hs
      · exact ih _ (lsStep_inv x a p f g c1 c2 hs) _ h
    · rw [if_neg hg] at ht
      simp only [List.mem_singleton] at ht
      subst ht
      exact hs

theorem lsTrace_amax_ne_none (fuel : ℕ) :
    ∀ s : LS, s.amax ≠ none → ∀ t ∈ lsTrace x a p f g c1 c2 fuel s, t.amax ≠ none := by
  induction fuel with
  | zero =>
    intro s hs t ht
    simp only [lsTrace, List.mem_singleton] at ht
    subst ht
    exact hs
  | succ fuel ih =>
    intro s hs t ht
    rw [lsTrace] at ht
    by_cases hg : lsGuard x a p f g c1 c2 s
    · rw [if_pos hg] at ht
      rcases List.mem_cons.mp ht with h | h
      · subst h
        exact hs
      · exact ih _ (lsStep_amax_ne_none x a p f g c1 c2 hs) _ h
    · rw [if_neg hg] at ht
      simp only [List.mem_singleton] at ht
      subst ht
      exact hs

theorem lsLoop_fst_mem_trace (fuel : ℕ) :
    ∀ (s : LS) (i : ℕ), (lsLoop x a p f g c1 c2 fuel s i).1 ∈ lsTrace x a p f g c1 c2 fuel s := by
  induction fuel with
  | zero =>
    intro s i
    simp [lsLoop, lsTrace]
  | succ fuel ih =>
    intro s i
    rw [lsLoop, lsTrace]
    by_cases hg : lsGuard x a p f g c1 c2 s
    · rw [if_pos hg, if_pos hg]
      exact List.mem_cons_of_mem _ (ih _ _)
    · rw [if_neg hg, if_neg hg]
      simp

theorem lsBranch_double {s : LS} (h : lsBranch x a p f g c1 c2 s = LSBranch.double) :
    s.amax = none ∧ lsStep x a p f g c1 c2 s = ⟨s.amin, 2 * s.alpha, none⟩ := by
  by_cases h1 : lsW1 x a p f g c1 < lsf x p f s.alpha
  · rw [lsBranch, if_pos h1] at h
    simp at h
  · by_cases h2 : lsh x p g s.alpha < lsW2 x p g c2
    · cases hmax : s.amax with
      | none =>
        refine ⟨rfl, ?_⟩
        rw [lsStep, if_neg h1, if_pos h2, hmax]
      | some M =>
        rw [lsBranch, if_neg h1, if_pos h2, hmax] at h
        simp at h
    · rw [lsBranch, if_neg h1, if_neg h2] at h
      simp at h

end LineSearchLemmas

/-- Claim C5: with a strictly positive initial step guess, at every state of
the bracketing loop `alpha_min` is nonnegative and below `alpha`, `alpha` is
strictly positive and below `alpha_max` whenever the latter is finite; each
loop-body execution can only increase `alpha_min` and decrease `alpha_max`
(in the order where `np.inf` is the top element); and the returned step
length is strictly positive. -/
theorem line_search_wolfe_bracket_invariant {n : ℕ} (x : Vec n) (a : ℚ) (p : Vec n)
    (f : Vec n → ℚ) (g : Vec n → Vec n) (c1 c2 : ℚ) (m : ℕ) (ha : 0 < a) :
    (∀ t ∈ lsTrace x a p f g c1 c2 m ⟨0, a, none⟩,
      (0 ≤ t.amin ∧ t.amin ≤ t.alpha ∧ 0 < t.alpha ∧
        (∀ M, t.amax = some M → t.alpha ≤ M)) ∧
      t.amin ≤ (lsStep x a p f g c1 c2 t).amin ∧
      amaxLe (lsStep x a p f g c1 c2 t).amax t.amax) ∧
    0 < (line_search_wolfe x a p f g c1 c2 m).1 := by
  have h0 : LSInv ⟨0, a, none⟩ :=
    ⟨le_refl 0, ha, le_of_lt ha, fun M hM => by simp at hM⟩
  constructor
  · intro t ht
    have hinv := lsTrace_inv x a p f g c1 c2 m ⟨0, a, none⟩ h0 t ht
    exact ⟨⟨hinv.1, hinv.2.2.1, hinv.2.1, hinv.2.2.2⟩,
      lsStep_amin_mono x a p f g c1 c2 hinv, lsStep_amax_mono x a p f g c1 c2 hinv⟩
  · have hmem := lsLoop_fst_mem_trace x a p f g c1 c2 m ⟨0, a, none⟩ 0
    have hinv := lsTrace_inv x a p f g c1 c2 m ⟨0, a, none⟩ h0 _ hmem
    simpa [line_search_wolfe] using hinv.2.1

/-- Witness for C5 at a concrete input. -/
theorem line_search_wolfe_bracket_invariant_witness :
    0 < (1 : ℚ) ∧ 0 < (line_search_wolfe trivVec 1 cexP trivF trivG (1/2) (3/4) 3).1 :=
  ⟨one_pos,
    (line_search_wolfe_bracket_invariant trivVec 1 cexP trivF trivG (1/2) (3/4) 3 one_pos).2⟩

/-- Claim C4: the step-doubling update can only execute while
`alpha_max = np.inf`; from any loop state with a finite `alpha_max`, every
later state of the run keeps `alpha_max` finite and never takes the doubling
branch, and every bracket update from such a state is either a no-op or a
bisection midpoint. -/
theorem line_search_wolfe_no_doubling_after_bound {n : ℕ} (x : Vec n) (a : ℚ) (p : Vec n)
    (f : Vec n → ℚ) (g : Vec n → Vec n) (c1 c2 : ℚ) (fuel : ℕ) (s : LS) :
    (s.amax ≠ none → ∀ t ∈ lsTrace x a p f g c1 c2 fuel s,
      t.amax ≠ none ∧ lsBranch x a p f g c1 c2 t ≠ LSBranch.double) ∧
    (lsBranch x a p f g c1 c2 s = LSBranch.double →
      s.amax = none ∧ lsStep x a p f g c1 c2 s = ⟨s.amin, 2 * s.alpha, none⟩) ∧
    (∀ M, s.amax = some M →
      lsStep x a p f g c1 c2 s = s ∨
      (lsStep x a p f g c1 c2 s).alpha = (s.amin + s.alpha) / 2 ∨
      (lsStep x a p f g c1 c2 s).alpha = (s.alpha + M) / 2) := by
  refine ⟨?_, lsBranch_double x a p f g c1 c2, ?_⟩
  · intro hs t ht
    refine ⟨lsTrace_amax_ne_none x a p f g c1 c2 fuel s hs t ht, fun hb => ?_⟩
    exact lsTrace_amax_ne_none x a p f g c1 c2 fuel s hs t ht
      (lsBranch_double x a p f g c1 c2 hb).1
  · intro M hM
    by_cases h1 : lsW1 x a p f g c1 < lsf x p f s.alpha
    · right
      left
      rw [lsStep, if_pos h1]
    · by_cases h2 : lsh x p g s.alpha < lsW2 x p g c2
      · right
        right
        rw [lsStep, if_neg h1, if_pos h2, hM]
      · left
        rw [lsStep, if_neg h1, if_neg h2]

/-- Witness for C4 at a concrete input. -/
theorem line_search_wolfe_no_doubling_after_bound_witness :
    (⟨0, 1, some 2⟩ : LS).amax ≠ none ∧
    lsBranch trivVec 1 cexP trivF trivG (1/2) (3/4) ⟨0, 1, some 2⟩ ≠ LSBranch.double :=
  (line_search_wolfe_no_doubling_after_bound trivVec 1 cexP trivF trivG (1/2) (3/4)
    0 ⟨0, 1, some 2⟩).1 (by simp) ⟨0, 1, some 2⟩ (by simp [lsTrace])

/-- Claim C10: at a loop state whose trial point violates neither strict
Wolfe test but hits one of the bounds exactly, the body takes no branch, the
state never changes, the loop spins until the iteration cap, and the call
returns that step with the flag reporting no (strict) violation. -/
theorem line_search_wolfe_boundary_stall {n : ℕ} (x : Vec n) (a : ℚ) (p : Vec n)
    (f : Vec n → ℚ) (g : Vec n → Vec n) (c1 c2 : ℚ) :
    (∀ (fuel : ℕ) (s : LS) (i : ℕ),
      lsf x p f s.alpha ≤ lsW1 x a p f g c1 →
      lsW2 x p g c2 ≤ lsh x p g s.alpha →
      (lsf x p f s.alpha = lsW1 x a p f g c1 ∨ lsh x p g s.alpha = lsW2 x p g c2) →
      lsLoop x a p f g c1 c2 fuel s i = (s, i + fuel)) ∧
    (∀ m : ℕ,
      lsf x p f a ≤ lsW1 x a p f g c1 →
      lsW2 x p g c2 ≤ lsh x p g a →
      (lsf x p f a = lsW1 x a p f g c1 ∨ lsh x p g a = lsW2 x p g c2) →
      line_search_wolfe x a p f g c1 c2 m = (a, m, false)) := by
  have hloop : ∀ (fuel : ℕ) (s : LS) (i : ℕ),
      lsf x p f s.alpha ≤ lsW1 x a p f g c1 →
      lsW2 x p g c2 ≤ lsh x p g s.alpha →
      (lsf x p f s.alpha = lsW1 x a p f g c1 ∨ lsh x p g s.alpha = lsW2 x p g c2) →
      lsLoop x a p f g c1 c2 fuel s i = (s, i + fuel) := by
    intro fuel
    induction fuel with
    | zero => intro s i _ _ _; rw [lsLoop, Nat.add_zero]
    | succ fuel ih =>
      intro s i h1 h2 h3
      have hg : lsGuard x a p f g c1 c2 s := by
        rcases h3 with h | h
        · exact Or.inl (le_of_eq h.symm)
        · exact Or.inr (le_of_eq h)
      have hstep : lsStep x a p f g c1 c2 s = s := by
        rw [lsStep, if_neg (not_lt.mpr h1), if_neg (not_lt.mpr h2)]
      rw [lsLoop, if_pos hg, hstep, ih s (i + 1) h1 h2 h3]
      congr 1
      omega
  refine ⟨hloop, ?_⟩
  intro m h1 h2 h3
  have hl := hloop m ⟨0, a, none⟩ 0 h1 h2 h3
  have hdec : decide (lsViol x a p f g c1 c2 a) = false := by
    simp only [decide_eq_false_iff_not, lsViol, not_or]
    exact ⟨not_lt.mpr h1, not_lt.mpr h2⟩
  simp only [line_search_wolfe, hl]
  show (a, 0 + m, decide (lsViol x a p f g c1 c2 a)) = (a, m, false)
  rw [hdec, Nat.zero_add]

/-- Witness for C10 at a concrete input where the trial value sits exactly on
the Armijo bound. -/
theorem line_search_wolfe_boundary_stall_witness :
    line_search_wolfe trivVec 1 cexP trivF trivG (1/2) (3/4) 3 = (1, 3, false) :=
  (line_search_wolfe_boundary_stall trivVec 1 cexP trivF trivG (1/2) (3/4)).2 3
    (by norm_num [lsf, lsW1, trivF, trivG, trivVec, dot, zOf, Fin.sum_univ_one])
    (by norm_num [lsh, lsW2, trivG, trivVec, dot, zOf, Fin.sum_univ_one])
    (Or.inl (by norm_num [lsf, lsW1, trivF, trivG, trivVec, dot, zOf, Fin.sum_univ_one]))

/-- Counterexample to claim C1 as stated: on this input the returned step
satisfies both Wolfe conditions (its objective value is below the Armijo
bound and its directional derivative is above the curvature bound), yet the
returned flag is `false`; so the flag is not true when the conditions hold. -/
theorem line_search_wolfe_chk_polarity_cex :
    line_search_wolfe cexX 1 cexP cexF cexG (1/4) (1/2) 10 = (1, 0, false) ∧
    lsf cexX cexP cexF 1 ≤ lsW1 cexX 1 cexP cexF cexG (1/4) ∧
    lsW2 cexX cexP cexG (1/2) ≤ lsh cexX cexP cexG 1 := by
  norm_num [line_search_wolfe, lsLoop, lsStep, lsGuard, lsViol, lsf, lsh, lsW1, lsW2, zOf, dot,
    cexX, cexP, cexF, cexG, Fin.sum_univ_one, Pi.add_apply, Pi.smul_apply, smul_eq_mul]

/-- Claim C1 as amended: the returned flag `chk` is `true` exactly when the
final trial point strictly violates at least one Wolfe condition
(`f(z) > W1` or `h(z) < W2`, with `W1` the Armijo bound computed at the
initial step guess); so `chk = true`, not `false`, signals that the search
gave up without satisfying both conditions. -/
theorem line_search_wolfe_chk_iff_violation {n : ℕ} (x : Vec n) (a : ℚ) (p : Vec n)
    (f : Vec n → ℚ) (g : Vec n → Vec n) (c1 c2 : ℚ) (m : ℕ) :
    (line_search_wolfe x a p f g c1 c2 m).2.2 = true ↔
      lsViol x a p f g c1 c2 (line_search_wolfe x a p f g c1 c2 m).1 := by
  simp [line_search_wolfe]

/-- Counterexample to claim C3 as stated: the source's line search and the
variant whose Armijo bound tracks the current trial step return different
results on this input, so the bound used in the tests does not track the
current trial step length. -/
theorem line_search_wolfe_W1_not_tracking_cex :
    line_search_wolfe cexX 2 cexP cexF cexG (9/20) (1/2) 5 = (1/16, 5, true) ∧
    line_search_wolfe_trackW1 cexX 2 cexP cexF cexG (9/20) (1/2) 5 = (1, 1, false) ∧
    line_search_wolfe cexX 2 cexP cexF cexG (9/20) (1/2) 5 ≠
      line_search_wolfe_trackW1 cexX 2 cexP cexF cexG (9/20) (1/2) 5 := by
  norm_num [line_search_wolfe, line_search_wolfe_trackW1, lsLoop, lsLoopT, lsStep, lsStepT,
    lsGuard, lsViol, lsf, lsh, lsW1, lsW1t, lsW2, zOf, dot, cexX, cexP, cexF, cexG,
    Fin.sum_univ_one, Pi.add_apply, Pi.smul_apply, smul_eq_mul]

/-- Claim C3 as amended: in every iteration of the bracketing loop, the
Armijo bound used by the tests is `lsW1 = f(x) + a*c1*(g(x)·p)` with `a` the
initial step guess — the bound is fixed for the whole call and does not
track the current trial step — and the curvature bound is
`lsW2 = c2*(g(x)·p)`. -/
theorem line_search_wolfe_armijo_bound_fixed {n : ℕ} (x : Vec n) (a : ℚ) (p : Vec n)
    (f : Vec n → ℚ) (g : Vec n → Vec n) (c1 c2 : ℚ) (fuel : ℕ) (s : LS) :
    ∀ t ∈ lsTrace x a p f g c1 c2 fuel s,
      (lsBranch x a p f g c1 c2 t = LSBranch.shrink ↔
        lsW1 x a p f g c1 < lsf x p f t.alpha) ∧
      (lsGuard x a p f g c1 c2 t ↔
        lsW1 x a p f g c1 ≤ lsf x p f t.alpha ∨ lsh x p g t.alpha ≤ lsW2 x p g c2) ∧
      lsW1 x a p f g c1 = f x + a * c1 * dot (g x) p ∧
      lsW2 x p g c2 = c2 * dot (g x) p := by
  intro t ht
  refine ⟨?_, Iff.rfl, rfl, rfl⟩
  by_cases h1 : lsW1 x a p f g c1 < lsf x p f t.alpha
  · rw [lsBranch, if_pos h1]
    exact iff_of_true rfl h1
  · refine iff_of_false ?_ h1
    by_cases h2 : lsh x p g t.alpha < lsW2 x p g c2
    · cases hmax : t.amax with
      | none =>
        rw [lsBranch, if_neg h1, if_pos h2, hmax]
        simp
      | some M =>
        rw [lsBranch, if_neg h1, if_pos h2, hmax]
        simp
    · rw [lsBranch, if_neg h1, if_neg h2]
      simp

/-- Witness for the amended C3 at a concrete state of a concrete trace. -/
theorem line_search_wolfe_armijo_bound_fixed_witness :
    (lsBranch trivVec 1 cexP trivF trivG (1/2) (3/4) ⟨0, 1, none⟩ = LSBranch.shrink ↔
      lsW1 trivVec 1 cexP trivF trivG (1/2) < lsf trivVec cexP trivF (1 : ℚ)) ∧
    (lsGuard trivVec 1 cexP trivF trivG (1/2) (3/4) ⟨0, 1, none⟩ ↔
      lsW1 trivVec 1 cexP trivF trivG (1/2) ≤ lsf trivVec cexP trivF (1 : ℚ) ∨
      lsh trivVec cexP trivG (1 : ℚ) ≤ lsW2 trivVec cexP trivG (3/4)) ∧
    lsW1 trivVec 1 cexP trivF trivG (1/2) = trivF trivVec + 1 * (1/2) * dot (trivG trivVec) cexP ∧
    lsW2 trivVec cexP trivG (3/4) = (3/4) * dot (trivG trivVec) cexP :=
  line_search_wolfe_armijo_bound_fixed trivVec 1 cexP trivF trivG (1/2) (3/4) 0
    ⟨0, 1, none⟩ ⟨0, 1, none⟩ (by simp [lsTrace])

section GaussNewtonLemmas

variable {nn mm : ℕ} (f : Vec nn → ℚ) (df : Vec nn → Vec nn) (r : Vec nn → Vec mm)
variable (J : Vec nn → Matrix (Fin mm) (Fin nn) ℚ)
variable (lstsq : Matrix (Fin mm) (Fin nn) ℚ → Vec mm → Vec nn)
variable (nrm : Vec nn → ℚ) (err c1 c2 : ℚ) (lsi : ℕ)

theorem gnGo_succ (fuel : ℕ) (x : Vec nn) (alpha ng : ℚ) (F G : List ℚ) (k : ℕ)
    (hg : err < ng) :
    gnGo f df r J lstsq nrm err c1 c2 lsi (fuel + 1) x alpha ng F G k =
      gnGo f df r J lstsq nrm err c1 c2 lsi fuel
        (gnNext f df r J lstsq c1 c2 lsi alpha x)
        (gnAlpha f df r J lstsq c1 c2 lsi alpha x)
        (nrm (df (gnNext f df r J lstsq c1 c2 lsi alpha x)))
        (F ++ [f (gnNext f df r J lstsq c1 c2 lsi alpha x)])
        (G ++ [nrm (df (gnNext f df r J lstsq c1 c2 lsi alpha x))])
        (k + 1) := by
  rw [gnGo, if_pos hg]
  rfl

theorem gnGo_stop (fuel : ℕ) (x : Vec nn) (alpha ng : ℚ) (F G : List ℚ) (k : ℕ)
    (hg : ¬ err < ng) :
    gnGo f df r J lstsq nrm err c1 c2 lsi (fuel + 1) x alpha ng F G k = ⟨x, F, G, k⟩ := by
  rw [gnGo, if_neg hg]

theorem gnGo_k_le (fuel : ℕ) :
    ∀ (x : Vec nn) (alpha ng : ℚ) (F G : List ℚ) (k : ℕ),
      (gnGo f df r J lstsq nrm err c1 c2 lsi fuel x alpha ng F G k).k ≤ k + fuel := by
  induction fuel with
  | zero =>
    intro x alpha ng F G k
    simp [gnGo]
  | succ fuel ih =>
    intro x alpha ng F G k
    by_cases hg : err < ng
    · rw [gnGo_succ f df r J lstsq nrm err c1 c2 lsi fuel x alpha ng F G k hg]
      exact le_trans (ih _ _ _ _ _ _) (by omega)
    · rw [gnGo_stop f df r J lstsq nrm err c1 c2 lsi fuel x alpha ng F G k hg]
      show k ≤ k + (fuel + 1)
      omega

theorem gnGo_k_ge (fuel : ℕ) :
    ∀ (x : Vec nn) (alpha ng : ℚ) (F G : List ℚ) (k : ℕ),
      k ≤ (gnGo f df r J lstsq nrm err c1 c2 lsi fuel x alpha ng F G k).k := by
  induction fuel with
  | zero =>
    intro x alpha ng F G k
    simp [gnGo]
  | succ fuel ih =>
    intro x alpha ng F G k
    by_cases hg : err < ng
    · rw [gnGo_succ f df r J lstsq nrm err c1 c2 lsi fuel x alpha ng F G k hg]
      exact le_trans (by omega) (ih _ _ _ _ _ _)
    · rw [gnGo_stop f df r J lstsq nrm err c1 c2 lsi fuel x alpha ng F G k hg]

theorem gnGo_hist (fuel : ℕ) :
    ∀ (x : Vec nn) (alpha ng : ℚ) (F G : List ℚ) (k : ℕ),
      (∃ tF, (gnGo f df r J lstsq nrm err c1 c2 lsi fuel x alpha ng F G k).F = F ++ tF ∧
        tF.length + k = (gnGo f df r J lstsq nrm err c1 c2 lsi fuel x alpha ng F G k).k) ∧
      (∃ tG, (gnGo f df r J lstsq nrm err c1 c2 lsi fuel x alpha ng F G k).G = G ++ tG ∧
        tG.length + k = (gnGo f df r J lstsq nrm err c1 c2 lsi fuel x alpha ng F G k).k) := by
  induction fuel with
  | zero =>
    intro x alpha ng F G k
    refine ⟨⟨[], ?_, ?_⟩, ⟨[], ?_, ?_⟩⟩ <;> simp [gnGo]
  | succ fuel ih =>
    intro x alpha ng F G k
    by_cases hg : err < ng
    · rw [gnGo_succ f df r J lstsq nrm err c1 c2 lsi fuel x alpha ng F G k hg]
      obtain ⟨⟨tF, hF, hFl⟩, ⟨tG, hG, hGl⟩⟩ := ih
        (gnNext f df r J lstsq c1 c2 lsi alpha x)
        (gnAlpha f df r J lstsq c1 c2 lsi alpha x)
        (nrm (df (gnNext f df r J lstsq c1 c2 lsi alpha x)))
        (F ++ [f (gnNext f df r J lstsq c1 c2 lsi alpha x)])
        (G ++ [nrm (df (gnNext f df r J lstsq c1 c2 lsi alpha x))])
        (k + 1)
      refine ⟨⟨f (gnNext f df r J lstsq c1 c2 lsi alpha x) :: tF, ?_, ?_⟩,
        ⟨nrm (df (gnNext f df r J lstsq c1 c2 lsi alpha x)) :: tG, ?_, ?_⟩⟩
      · rw [hF]
        simp
      · simp only [List.length_cons]
        omega
      · rw [hG]
        simp
      · simp only [List.length_cons]
        omega
    · rw [gnGo_stop f df r J lstsq nrm err c1 c2 lsi fuel x alpha ng F G k hg]
      refine ⟨⟨[], ?_, ?_⟩, ⟨[], ?_, ?_⟩⟩ <;> simp

theorem gnGo_G_nonfinal (fuel : ℕ) :
    ∀ (x : Vec nn) (alpha ng : ℚ) (F G : List ℚ) (k : ℕ),
      (∀ q ∈ G, err < q) →
      ∀ q ∈ (gnGo f df r J lstsq nrm err c1 c2 lsi fuel x alpha ng F G k).G.dropLast,
        err < q := by
  induction fuel with
  | zero =>
    intro x alpha ng F G k hall q hq
    rw [gnGo] at hq
    exact hall q (List.dropLast_subset G hq)
  | succ fuel ih =>
    intro x alpha ng F G k hall q hq
    by_cases hg : err < ng
    · rw [gnGo_succ f df r J lstsq nrm err c1 c2 lsi fuel x alpha ng F G k hg] at hq
      by_cases hng : err < nrm (df (gnNext f df r J lstsq c1 c2 lsi alpha x))
      · refine ih _ _ _ _ _ _ ?_ q hq
        intro q' hq'
        rcases List.mem_append.mp hq' with h | h
        · exact hall q' h
        · rw [List.mem_singleton] at h
          subst h
          exact hng
      · cases fuel with
        | zero =>
          rw [gnGo] at hq
          rw [List.dropLast_concat] at hq
          exact hall q hq
        | succ fuel' =>
          rw [gnGo_stop f df r J lstsq nrm err c1 c2 lsi fuel' _ _ _ _ _ _ hng] at hq
          rw [List.dropLast_concat] at hq
          exact hall q hq
    · rw [gnGo_stop f df r J lstsq nrm err c1 c2 lsi fuel x alpha ng F G k hg] at hq
      exact hall q (List.dropLast_subset G hq)

theorem gnGo_exit (fuel : ℕ) :
    ∀ (x : Vec nn) (alpha ng : ℚ) (F G : List ℚ) (k : ℕ),
      (gnGo f df r J lstsq nrm err c1 c2 lsi fuel x alpha ng F G k).k < k + fuel →
      (gnGo f df r J lstsq nrm err c1 c2 lsi fuel x alpha ng F G k = ⟨x, F, G, k⟩ ∧
        ¬ err < ng) ∨
      (∃ q, (gnGo f df r J lstsq nrm err c1 c2 lsi fuel x alpha ng F G k).G.getLast? = some q ∧
        q ≤ err) := by
  induction fuel with
  | zero =>
    intro x alpha ng F G k h
    simp [gnGo] at h
  | succ fuel ih =>
    intro x alpha ng F G k h
    by_cases hg : err < ng
    · rw [gnGo_succ f df r J lstsq nrm err c1 c2 lsi fuel x alpha ng F G k hg] at h ⊢
      by_cases hng : err < nrm (df (gnNext f df r J lstsq c1 c2 lsi alpha x))
      · have h' : (gnGo f df r J lstsq nrm err c1 c2 lsi fuel
            (gnNext f df r J lstsq c1 c2 lsi alpha x)
            (gnAlpha f df r J lstsq c1 c2 lsi alpha x)
            (nrm (df (gnNext f df r J lstsq c1 c2 lsi alpha x)))
            (F ++ [f (gnNext f df r J lstsq c1 c2 lsi alpha x)])
            (G ++ [nrm (df (gnNext f df r J lstsq c1 c2 lsi alpha x))])
            (k + 1)).k < (k + 1) + fuel := by omega
        rcases ih _ _ _ _ _ _ h' with ⟨_, hstop⟩ | hlast
        · exact absurd hng hstop
        · exact Or.inr hlast
      · cases fuel with
        | zero =>
          rw [gnGo]
          refine Or.inr ⟨nrm (df (gnNext f df r J lstsq c1 c2 lsi alpha x)), ?_, le_of_not_lt hng⟩
          simp [List.getLast?_concat]
        | succ fuel' =>
          rw [gnGo_stop f df r J lstsq nrm err c1 c2 lsi fuel' _ _ _ _ _ _ hng]
          refine Or.inr ⟨nrm (df (gnNext f df r J lstsq c1 c2 lsi alpha x)), ?_, le_of_not_lt hng⟩
          simp [List.getLast?_concat]
    · rw [gnGo_stop f df r J lstsq nrm err c1 c2 lsi fuel x alpha ng F G k hg]
      exact Or.inl ⟨rfl, hg⟩

end GaussNewtonLemmas

/-- Claim C2: the returned iteration count never exceeds `N`; one history
entry exists per executed outer step (`G` has length `k`); the loop
terminates immediately once the recomputed gradient norm drops to or below
`err`, so every non-final gradient-norm entry is strictly above `err`; and
an early return (`k < N`) happens only because the loop either never started
(`k = 0` with the seeded guard `2*err > err` failing) or stopped right at
the first entry at or below `err`. -/
theorem gauss_newton_iteration_budget {nn mm : ℕ} (f : Vec nn → ℚ) (df : Vec nn → Vec nn)
    (r : Vec nn → Vec mm) (J : Vec nn → Matrix (Fin mm) (Fin nn) ℚ)
    (lstsq : Matrix (Fin mm) (Fin nn) ℚ → Vec mm → Vec nn) (nrm : Vec nn → ℚ)
    (err c1 c2 : ℚ) (lsi N : ℕ) (x0 : Vec nn) :
    (gauss_newton f df r J lstsq nrm err c1 c2 lsi N x0).k ≤ N ∧
    (gauss_newton f df r J lstsq nrm err c1 c2 lsi N x0).G.length =
      (gauss_newton f df r J lstsq nrm err c1 c2 lsi N x0).k ∧
    (∀ q ∈ (gauss_newton f df r J lstsq nrm err c1 c2 lsi N x0).G.dropLast, err < q) ∧
    ((gauss_newton f df r J lstsq nrm err c1 c2 lsi N x0).k < N →
      ((gauss_newton f df r J lstsq nrm err c1 c2 lsi N x0).k = 0 ∧ ¬ err < 2 * err) ∨
      ∃ q, (gauss_newton f df r J lstsq nrm err c1 c2 lsi N x0).G.getLast? = some q ∧
        q ≤ err) := by
  refine ⟨?_, ?_, ?_, ?_⟩
  · have h := gnGo_k_le f df r J lstsq nrm err c1 c2 lsi N x0 1 (2 * err) [] [] 0
    rw [gauss_newton]
    omega
  · obtain ⟨_, ⟨tG, hG, hGl⟩⟩ :=
      gnGo_hist f df r J lstsq nrm err c1 c2 lsi N x0 1 (2 * err) [] [] 0
    rw [gauss_newton, hG]
    simp only [List.nil_append]
    omega
  · have h := gnGo_G_nonfinal f df r J lstsq nrm err c1 c2 lsi N x0 1 (2 * err) [] [] 0
      (by intro q hq; simp at hq)
    rw [gauss_newton]
    exact h
  · intro hk
    rw [gauss_newton] at hk ⊢
    have hk' : (gnGo f df r J lstsq nrm err c1 c2 lsi N x0 1 (2 * err) [] [] 0).k < 0 + N := by
      omega
    rcases gnGo_exit f df r J lstsq nrm err c1 c2 lsi N x0 1 (2 * err) [] [] 0 hk' with
      ⟨heq, hng⟩ | h
    · exact Or.inl ⟨by rw [heq], hng⟩
    · exact Or.inr h

/-- Witness for C2: a concrete run that stops early on tolerance, with the
final gradient-norm entry at or below `err`. -/
theorem gauss_newton_iteration_budget_witness :
    ((gauss_newton trivF trivG trivR trivJ trivLstsq trivNrm 1 (1/2) (3/4) 2 2 trivVec).k = 0 ∧
      ¬ (1 : ℚ) < 2 * 1) ∨
    ∃ q, (gauss_newton trivF trivG trivR trivJ trivLstsq trivNrm 1 (1/2) (3/4) 2 2
      trivVec).G.getLast? = some q ∧ q ≤ 1 :=
  (gauss_newton_iteration_budget trivF trivG trivR trivJ trivLstsq trivNrm
    1 (1/2) (3/4) 2 2 trivVec).2.2.2 (by norm_num [gauss_newton, gnGo, trivNrm])

/-- Claim C6: the initial line-search guess is `1` on the first outer
iteration (the driver starts `gnGo` with `alpha = 1`), each step passes the
current `alpha` to the line search and threads the returned step length both
into the update `x + alpha'*p` — performed unconditionally, the `chk` flag
being never consulted — and into the next iteration as its initial guess. -/
theorem gauss_newton_warm_start {nn mm : ℕ} (f : Vec nn → ℚ) (df : Vec nn → Vec nn)
    (r : Vec nn → Vec mm) (J : Vec nn → Matrix (Fin mm) (Fin nn) ℚ)
    (lstsq : Matrix (Fin mm) (Fin nn) ℚ → Vec mm → Vec nn) (nrm : Vec nn → ℚ)
    (err c1 c2 : ℚ) (lsi : ℕ) :
    (∀ (N : ℕ) (x0 : Vec nn),
      gauss_newton f df r J lstsq nrm err c1 c2 lsi N x0 =
        gnGo f df r J lstsq nrm err c1 c2 lsi N x0 1 (2 * err) [] [] 0) ∧
    (∀ (fuel : ℕ) (x : Vec nn) (alpha ng : ℚ) (F G : List ℚ) (k : ℕ), err < ng →
      gnGo f df r J lstsq nrm err c1 c2 lsi (fuel + 1) x alpha ng F G k =
        gnGo f df r J lstsq nrm err c1 c2 lsi fuel
          (gnNext f df r J lstsq c1 c2 lsi alpha x)
          (gnAlpha f df r J lstsq c1 c2 lsi alpha x)
          (nrm (df (gnNext f df r J lstsq c1 c2 lsi alpha x)))
          (F ++ [f (gnNext f df r J lstsq c1 c2 lsi alpha x)])
          (G ++ [nrm (df (gnNext f df r J lstsq c1 c2 lsi alpha x))])
          (k + 1)) ∧
    (∀ (alpha : ℚ) (x : Vec nn),
      gnAlpha f df r J lstsq c1 c2 lsi alpha x =
        (line_search_wolfe x alpha (gnDir r J lstsq x) f df c1 c2 lsi).1) ∧
    (∀ (alpha : ℚ) (x : Vec nn),
      gnNext f df r J lstsq c1 c2 lsi alpha x =
        x + gnAlpha f df r J lstsq c1 c2 lsi alpha x • gnDir r J lstsq x) :=
  ⟨fun _ _ => rfl,
   fun fuel x alpha ng F G k hg => gnGo_succ f df r J lstsq nrm err c1 c2 lsi fuel x alpha ng F G k hg,
   fun _ _ => rfl, fun _ _ => rfl⟩

/-- Witness for C6: one concrete executed step of the driver loop. -/
theorem gauss_newton_warm_start_witness :
    gnGo trivF trivG trivR trivJ trivLstsq trivNrm 1 (1/2) (3/4) 2 (0 + 1) trivVec 1 2 [] [] 0 =
      gnGo trivF trivG trivR trivJ trivLstsq trivNrm 1 (1/2) (3/4) 2 0
        (gnNext trivF trivG trivR trivJ trivLstsq (1/2) (3/4) 2 1 trivVec)
        (gnAlpha trivF trivG trivR trivJ trivLstsq (1/2) (3/4) 2 1 trivVec)
        (trivNrm (trivG (gnNext trivF trivG trivR trivJ trivLstsq (1/2) (3/4) 2 1 trivVec)))
        ([] ++ [trivF (gnNext trivF trivG trivR trivJ trivLstsq (1/2) (3/4) 2 1 trivVec)])
        ([] ++ [trivNrm (trivG (gnNext trivF trivG trivR trivJ trivLstsq (1/2) (3/4) 2 1 trivVec))])
        (0 + 1) :=
  (gauss_newton_warm_start trivF trivG trivR trivJ trivLstsq trivNrm 1 (1/2) (3/4) 2).2.1
    0 trivVec 1 2 [] [] 0 (by norm_num)

/-- Claim C7: every executed outer iteration appends exactly one entry to
each history — the objective value of the just-updated iterate to `F` and
its gradient norm to `G` — previously appended entries are never removed
(the result histories extend the accumulators), and on return both history
lengths equal the returned iteration count. -/
theorem gauss_newton_history_append {nn mm : ℕ} (f : Vec nn → ℚ) (df : Vec nn → Vec nn)
    (r : Vec nn → Vec mm) (J : Vec nn → Matrix (Fin mm) (Fin nn) ℚ)
    (lstsq : Matrix (Fin mm) (Fin nn) ℚ → Vec mm → Vec nn) (nrm : Vec nn → ℚ)
    (err c1 c2 : ℚ) (lsi : ℕ) :
    (∀ (N : ℕ) (x0 : Vec nn),
      (gauss_newton f df r J lstsq nrm err c1 c2 lsi N x0).F.length =
        (gauss_newton f df r J lstsq nrm err c1 c2 lsi N x0).k ∧
      (gauss_newton f df r J lstsq nrm err c1 c2 lsi N x0).G.length =
        (gauss_newton f df r J lstsq nrm err c1 c2 lsi N x0).k) ∧
    (∀ (fuel : ℕ) (x : Vec nn) (alpha ng : ℚ) (F G : List ℚ) (k : ℕ),
      (∃ tF, (gnGo f df r J lstsq nrm err c1 c2 lsi fuel x alpha ng F G k).F = F ++ tF ∧
        tF.length + k = (gnGo f df r J lstsq nrm err c1 c2 lsi fuel x alpha ng F G k).k) ∧
      (∃ tG, (gnGo f df r J lstsq nrm err c1 c2 lsi fuel x alpha ng F G k).G = G ++ tG ∧
        tG.length + k = (gnGo f df r J lstsq nrm err c1 c2 lsi fuel x alpha ng F G k).k)) ∧
    (∀ (fuel : ℕ) (x : Vec nn) (alpha ng : ℚ) (F G : List ℚ) (k : ℕ), err < ng →
      gnGo f df r J lstsq nrm err c1 c2 lsi (fuel + 1) x alpha ng F G k =
        gnGo f df r J lstsq nrm err c1 c2 lsi fuel
          (gnNext f df r J lstsq c1 c2 lsi alpha x)
          (gnAlpha f df r J lstsq c1 c2 lsi alpha x)
          (nrm (df (gnNext f df r J lstsq c1 c2 lsi alpha x)))
          (F ++ [f (gnNext f df r J lstsq c1 c2 lsi alpha x)])
          (G ++ [nrm (df (gnNext f df r J lstsq c1 c2 lsi alpha x))])
          (k + 1)) := by
  refine ⟨?_, ?_, ?_⟩
  · intro N x0
    obtain ⟨⟨tF, hF, hFl⟩, ⟨tG, hG, hGl⟩⟩ :=
      gnGo_hist f df r J lstsq nrm err c1 c2 lsi N x0 1 (2 * err) [] [] 0
    constructor
    · rw [gauss_newton, hF]
      simp only [List.nil_append]
      omega
    · rw [gauss_newton, hG]
      simp only [List.nil_append]
      omega
  · intro fuel x alpha ng F G k
    exact gnGo_hist f df r J lstsq nrm err c1 c2 lsi fuel x alpha ng F G k
  · intro fuel x alpha ng F G k hg
    exact gnGo_succ f df r J lstsq nrm err c1 c2 lsi fuel x alpha ng F G k hg

/-- Witness for C7: history lengths of a concrete run, and one concrete
executed step appending its two entries. -/
theorem gauss_newton_history_append_witness :
    ((gauss_newton trivF trivG trivR trivJ trivLstsq trivNrm 2 (1/2) (3/4) 1 1 trivVec).F.length =
      (gauss_newton trivF trivG trivR trivJ trivLstsq trivNrm 2 (1/2) (3/4) 1 1 trivVec).k ∧
    (gauss_newton trivF trivG trivR trivJ trivLstsq trivNrm 2 (1/2) (3/4) 1 1 trivVec).G.length =
      (gauss_newton trivF trivG trivR trivJ trivLstsq trivNrm 2 (1/2) (3/4) 1 1 trivVec).k) ∧
    gnGo trivF trivG trivR trivJ trivLstsq trivNrm 2 (1/2) (3/4) 1 (0 + 1) trivVec 1 3 [] [] 0 =
      gnGo trivF trivG trivR trivJ trivLstsq trivNrm 2 (1/2) (3/4) 1 0
        (gnNext trivF trivG trivR trivJ trivLstsq (1/2) (3/4) 1 1 trivVec)
        (gnAlpha trivF trivG trivR trivJ trivLstsq (1/2) (3/4) 1 1 trivVec)
        (trivNrm (trivG (gnNext trivF trivG trivR trivJ trivLstsq (1/2) (3/4) 1 1 trivVec)))
        ([] ++ [trivF (gnNext trivF trivG trivR trivJ trivLstsq (1/2) (3/4) 1 1 trivVec)])
        ([] ++ [trivNrm (trivG (gnNext trivF trivG trivR trivJ trivLstsq (1/2) (3/4) 1 1 trivVec))])
        (0 + 1) :=
  ⟨(gauss_newton_history_append trivF trivG trivR trivJ trivLstsq trivNrm 2 (1/2) (3/4) 1).1
      1 trivVec,
   (gauss_newton_history_append trivF trivG trivR trivJ trivLstsq trivNrm 2 (1/2) (3/4) 1).2.2
      0 trivVec 1 3 [] [] 0 (by norm_num)⟩

/-- Claim C9: the driver never tests convergence at the initial point — the
guard is seeded with `ng = 2*err`, so for `err > 0` and `N ≥ 1` at least one
outer iteration executes whatever `‖df(x0)‖` is; and for `err ≤ 0` the seeded
guard already fails, so the loop body never runs and the unchanged initial
point, two empty histories and count `0` are returned. -/
theorem gauss_newton_no_initial_convergence_test {nn mm : ℕ} (f : Vec nn → ℚ)
    (df : Vec nn → Vec nn) (r : Vec nn → Vec mm) (J : Vec nn → Matrix (Fin mm) (Fin nn) ℚ)
    (lstsq : Matrix (Fin mm) (Fin nn) ℚ → Vec mm → Vec nn) (nrm : Vec nn → ℚ)
    (err c1 c2 : ℚ) (lsi : ℕ) :
    (∀ (N : ℕ) (x0 : Vec nn), 0 < err → 1 ≤ N →
      1 ≤ (gauss_newton f df r J lstsq nrm err c1 c2 lsi N x0).k) ∧
    (∀ (N : ℕ) (x0 : Vec nn), err ≤ 0 →
      (gauss_newton f df r J lstsq nrm err c1 c2 lsi N x0).x = x0 ∧
      (gauss_newton f df r J lstsq nrm err c1 c2 lsi N x0).F = [] ∧
      (gauss_newton f df r J lstsq nrm err c1 c2 lsi N x0).G = [] ∧
      (gauss_newton f df r J lstsq nrm err c1 c2 lsi N x0).k = 0) := by
  constructor
  · intro N x0 herr hN
    obtain ⟨N', rfl⟩ : ∃ N', N = N' + 1 := ⟨N - 1, by omega⟩
    rw [gauss_newton,
      gnGo_succ f df r J lstsq nrm err c1 c2 lsi N' x0 1 (2 * err) [] [] 0 (by linarith)]
    have h := gnGo_k_ge f df r J lstsq nrm err c1 c2 lsi N'
      (gnNext f df r J lstsq c1 c2 lsi 1 x0)
      (gnAlpha f df r J lstsq c1 c2 lsi 1 x0)
      (nrm (df (gnNext f df r J lstsq c1 c2 lsi 1 x0)))
      ([] ++ [f (gnNext f df r J lstsq c1 c2 lsi 1 x0)])
      ([] ++ [nrm (df (gnNext f df r J lstsq c1 c2 lsi 1 x0))])
      (0 + 1)
    omega
  · intro N x0 herr
    cases N with
    | zero => exact ⟨rfl, rfl, rfl, rfl⟩
    | succ N' =>
      have hng : ¬ err < 2 * err := by linarith
      rw [gauss_newton,
        gnGo_stop f df r J lstsq nrm err c1 c2 lsi N' x0 1 (2 * err) [] [] 0 hng]
      exact ⟨rfl, rfl, rfl, rfl⟩

/-- Witness for C9: with `err = 1 > 0` one iteration runs even though the
initial gradient norm is `0 ≤ err`; with `err = -1 ≤ 0` nothing runs. -/
theorem gauss_newton_no_initial_convergence_test_witness :
    1 ≤ (gauss_newton trivF trivG trivR trivJ trivLstsq trivNrm 1 (1/2) (3/4) 2 1 trivVec).k ∧
    trivNrm (trivG trivVec) ≤ 1 ∧
    (gauss_newton trivF trivG trivR trivJ trivLstsq trivNrm (-1) (1/2) (3/4) 2 1 trivVec).k = 0 :=
  ⟨(gauss_newton_no_initial_convergence_test trivF trivG trivR trivJ trivLstsq trivNrm
      1 (1/2) (3/4) 2).1 1 trivVec one_pos (le_refl 1),
   by norm_num [trivNrm],
   ((gauss_newton_no_initial_convergence_test trivF trivG trivR trivJ trivLstsq trivNrm
      (-1) (1/2) (3/4) 2).2 1 trivVec (by norm_num)).2.2.2⟩
